import Mathlib

/-!
Verification of the Undying Dusk page reducer.

Shallow embedding of `pdf_game/reducer.py`: a fixpoint deduplication pass over
a page-reference graph driven by render-trace fingerprints.

Pages are identified by their index in the input list; `assign_page_ids`
(external to the repository sources provided) assigns unique identifiers, which
we model as the page index itself.  The `page_id_from` redirection (also
external) aliases a duplicate page identifier to its current identifier of the representative; we model it as a redirect table (`redir`), with the current
identifier of page `i` obtained by following the redirect chain to its root.
-/

namespace UndyingDusk


/-- A page (`GameView`): opaque drawn content plus ordered action slots, each
optionally referencing a target page by its original index.  Content beyond
link structure is opaque to the reducer, so it is abstracted as a `Nat`. -/
structure GameView where
  content : Nat
  actions : List (Option Nat)
deriving DecidableEq

instance : Inhabited GameView := ⟨⟨0, []⟩⟩

/-- The constant `MIN_REMOVED_VIEWS_TO_GO_ON = 25` from `reducer.py`. -/
def MIN_REMOVED_VIEWS_TO_GO_ON : Nat := 25

/-- A redirect table: `redir.getD i none = some j` means the identifier of page
`i` has been aliased (via `page_id_from`) to the current identifier of page `j`. -/
abbrev Redir := List (Option Nat)

/-- Read the redirect table at index `t` (out-of-range reads give `none`:
such a page was never redirected). -/
def rget (redir : Redir) (t : Nat) : Option Nat :=
  redir.getD t none

/-- One step of redirect-chain following, with explicit fuel. -/
def resolveAux (redir : Redir) : Nat → Nat → Nat
  | 0, t => t
  | fuel + 1, t =>
    match rget redir t with
    | none => t
    | some q => resolveAux redir fuel q

/-- The current identifier of page `t`: follow the redirect chain to its root.
Fuel `redir.length` suffices for every table produced by the reducer, where
redirects always point to strictly smaller indices. -/
def resolve (redir : Redir) (t : Nat) : Nat :=
  resolveAux redir redir.length t

/-- A render trace: the drawn content of the page together with the action-slot
targets by current identifier. -/
abbrev Trace := Nat × List (Option Nat)

/-- Modelled from the spec: `render_page` (imported by `reducer.py` from
`pdf_game.render`, not among the provided sources) renders one page against
the `FakePdfRecorder`; per spec sections 3 and 4.1-4.2 the resulting trace is
determined by the drawn content of the page and its outgoing link targets by
*current* identifier (post-redirection).  `renderTrace pages redir i` is that
trace for page `i`. -/
def renderTrace (pages : List GameView) (redir : Redir) (i : Nat) : Trace :=
  ((pages.getD i default).content,
   (pages.getD i default).actions.map (Option.map (fun t => resolve redir t)))

/-- The incoming-edge list of page `t` built by `build_fingerprinted_pages`:
every page (in index order) contributes one entry per action slot referencing
`t`. -/
def incomingPages (pages : List GameView) (t : Nat) : List Nat :=
  (List.range pages.length).flatMap (fun j =>
    (pages.getD j default).actions.filterMap (fun a =>
      if a = some t then some j else none))

/-- Errors a `reduce_views` run can abort with: the `assert ... page_id != ...`
failure (`Prevent infinite loop`), the `ZeroDivisionError` of the final
percentage computation on an empty input, and fuel exhaustion of our bounded
model of the `while True` loop (proved unreachable). -/
inductive RErr where
  | assertLoop
  | divByZero
  | fuelOut
deriving DecidableEq

/-- The mutable state of one reduction pass, generic over the fingerprint
codomain `H` (the Python code stores `hash(tuple(calls))`; instantiating `H`
with `Trace` itself and `h = id` models the collision-freedom
assumption).  `cache` maps each original page index to the `fingerprint` field
of its `FingerprintedPage`; `fpMap` is `gv_per_page_fingerprint` (fingerprint
to representative page index); `filtered` is `filtered_fp_pages`. -/
structure RState (H : Type) where
  redir : Redir
  cache : Nat → H
  fpMap : List (H × Nat)
  filtered : List Nat

/-- Keyed lookup in the fingerprint map (`gv_per_page_fingerprint.get`). -/
def lookupFp {H : Type} [DecidableEq H] (m : List (H × Nat)) (k : H) : Option Nat :=
  match m with
  | [] => none
  | (k2, v) :: rest => if k = k2 then some v else lookupFp rest k

/-- Point update of the fingerprint cache. -/
def updateCache {H : Type} (c : Nat → H) (j : Nat) (v : H) : Nat → H :=
  fun p => if p = j then v else c p

/-- Recompute the cached fingerprints of the pages in `js` against the
redirect table `redir2` (the inner
`for incoming_fp_page in fp_page.incoming_pages` loop). -/
def recomputeAll {H : Type} (pages : List GameView) (h : Trace → H) (redir2 : Redir)
    (js : List Nat) (c : Nat → H) : Nat → H :=
  js.foldl (fun c j => updateCache c j (h (renderTrace pages redir2 j))) c

/-- Processing of one `fp_page` in the pass loop of `reduce_views`: look the
cached fingerprint up; on a hit, check the anti-loop assertion, redirect the
page identifier to the representative and recompute the fingerprints of all
incoming pages; on a miss, register the page as representative and keep it. -/
def scanPage {H : Type} [DecidableEq H] (pages : List GameView) (h : Trace → H)
    (st : RState H) (i : Nat) : Except RErr (RState H) :=
  match lookupFp st.fpMap (st.cache i) with
  | some rep =>
    if resolve st.redir i = resolve st.redir rep then
      Except.error RErr.assertLoop
    else
      let redir2 := st.redir.set i (some rep)
      Except.ok { st with
        redir := redir2,
        cache := recomputeAll pages h redir2 (incomingPages pages i) st.cache }
  | none =>
    Except.ok { st with
      fpMap := (st.cache i, i) :: st.fpMap,
      filtered := st.filtered ++ [i] }

/-- Sequential processing of the working list (the `for fp_page in ...` loop),
aborting on the first assertion failure. -/
def scanList {H : Type} [DecidableEq H] (pages : List GameView) (h : Trace → H) :
    List Nat → RState H → Except RErr (RState H)
  | [], st => Except.ok st
  | i :: rest, st =>
    match scanPage pages h st i with
    | Except.error e => Except.error e
    | Except.ok st2 => scanList pages h rest st2

/-- The stopping condition tested after each pass:
`if not views_removed or not multipass or views_removed < MIN_REMOVED_VIEWS_TO_GO_ON`. -/
def stopCond (removed : Nat) (multipass : Bool) : Bool :=
  removed == 0 || !multipass || removed < MIN_REMOVED_VIEWS_TO_GO_ON

/-- The observable outcome of a `reduce_views` run: surviving page indices in
order, the final identifier-redirect table, the number of views removed by
each pass, the total, and the reported removal percentage. -/
structure ReduceResult where
  survivors : List Nat
  redir : Redir
  passRemovals : List Nat
  totalRemoved : Nat
  pct : ℚ
deriving DecidableEq

/-- The `while True` loop of `reduce_views`, with explicit fuel standing in
for the unbounded loop (fuel exhaustion is reported as `RErr.fuelOut` and
proved unreachable for the fuel used by `reduceWith`).  On stopping, the final
percentage `100 * total_views_removed / len(game_views)` raises
`ZeroDivisionError` for an empty input. -/
def loopAux {H : Type} [DecidableEq H] (pages : List GameView) (h : Trace → H)
    (multipass : Bool) :
    Nat → List Nat → Redir → (Nat → H) → Nat → List Nat → Except RErr ReduceResult
  | 0, _, _, _, _, _ => Except.error RErr.fuelOut
  | fuel + 1, working, redir, cache, total, removals =>
    match scanList pages h working ⟨redir, cache, [], []⟩ with
    | Except.error e => Except.error e
    | Except.ok st =>
      let removed := working.length - st.filtered.length
      let total2 := total + removed
      let removals2 := removals ++ [removed]
      if stopCond removed multipass then
        if pages.length = 0 then Except.error RErr.divByZero
        else Except.ok ⟨st.filtered, st.redir, removals2, total2,
          mkRat (100 * total2) pages.length⟩
      else loopAux pages h multipass fuel st.filtered st.redir st.cache total2 removals2

/-- The function `reduce_views`, generic over the fingerprint function `h` applied to render
traces (the Python code uses `hash(tuple(self._calls))`).  Initial state: every
page gets identifier = its index (modelling `assign_page_ids`), an empty
redirect table, and a freshly computed fingerprint
(`build_fingerprinted_pages`). -/
def reduceWith {H : Type} [DecidableEq H] (h : Trace → H) (pages : List GameView)
    (multipass : Bool) : Except RErr ReduceResult :=
  loopAux pages h multipass (pages.length / MIN_REMOVED_VIEWS_TO_GO_ON + 1)
    (List.range pages.length)
    (List.replicate pages.length none)
    (fun i => h (renderTrace pages (List.replicate pages.length none) i))
    0 []

/-- The function `reduce_views` with the identity fingerprint function: per spec section 3,
fingerprint equality is used as a surrogate for exact trace equality
(collisions are a design assumption, not handled). -/
def reduce_views (pages : List GameView) (multipass : Bool) : Except RErr ReduceResult :=
  reduceWith (fun t => t) pages multipass

/-- The game views returned by `reduce_views`
(`[fp_page.game_view for fp_page in fingerprinted_pages]`). -/
def outputViews (pages : List GameView) (r : ReduceResult) : List GameView :=
  r.survivors.map (fun i => pages.getD i default)

/-- The reduced page set re-expressed as a standalone page list, for running
the reducer on its own output: each surviving page keeps its content, and each
action target is resolved through the final redirect table and renumbered to
its position among the survivors. -/
def outputPages (pages : List GameView) (r : ReduceResult) : List GameView :=
  r.survivors.map (fun i =>
    { content := (pages.getD i default).content,
      actions := (pages.getD i default).actions.map
        (Option.map (fun t => r.survivors.indexOf (resolve r.redir t))) })

/-! ## Basic lemmas about the redirect table and chain resolution -/

/-- A well-formed redirect table always points to a strictly smaller index
(representatives are encountered earlier in the sorted working list). -/
def RedirDecr (redir : Redir) : Prop :=
  ∀ p q, rget redir p = some q → q < p

/-! ## The pass invariant -/

/-- The invariant maintained while one reduction pass walks its working list;
`rest` is the suffix of the working list still to scan.  Key facts: pages still
to scan and pages kept so far are unredirected; the map sends fingerprints to
kept representatives; the kept-so-far list and the remaining suffix are jointly
sorted (working lists are always subsequences of `range`); every unredirected
page in range is either kept or still to scan; map keys are pairwise distinct;
map keys and cache entries are fingerprints of render traces at some redirect
state. -/
structure PassInv {H : Type} (pages : List GameView) (h : Trace → H)
    (rest : List Nat) (st : RState H) : Prop where
  redirLen : st.redir.length = pages.length
  decr : RedirDecr st.redir
  restLt : ∀ i ∈ rest, i < pages.length
  restNone : ∀ i ∈ rest, rget st.redir i = none
  filtLt : ∀ i ∈ st.filtered, i < pages.length
  filtNone : ∀ i ∈ st.filtered, rget st.redir i = none
  mapFilt : ∀ e ∈ st.fpMap, e.2 ∈ st.filtered
  sortedApp : (st.filtered ++ rest).Pairwise (fun a b => a < b)
  complete : ∀ p, p < pages.length → rget st.redir p = none → p ∈ st.filtered ++ rest
  keysDist : st.fpMap.Pairwise (fun e1 e2 => e1.1 ≠ e2.1)
  keyTrace : ∀ e ∈ st.fpMap, ∃ ρ, e.1 = h (renderTrace pages ρ e.2)
  cacheTrace : ∀ p, ∃ ρ, st.cache p = h (renderTrace pages ρ p)

/-! ## The loop invariant and the master run lemma -/

/-- The invariant holding at the top of each `while True` iteration. -/
def LoopInv {H : Type} (pages : List GameView) (h : Trace → H) (working : List Nat)
    (redir : Redir) (cache : Nat → H) : Prop :=
  PassInv pages h working ⟨redir, cache, [], []⟩

/-- What is true of the result of a completed `reduce_views` run. -/
structure FinalInv (pages : List GameView) (res : ReduceResult) : Prop where
  redirLen : res.redir.length = pages.length
  decr : RedirDecr res.redir
  sorted : res.survivors.Pairwise (fun a b => a < b)
  mem_iff : ∀ p, p ∈ res.survivors ↔ (p < pages.length ∧ rget res.redir p = none)

instance exceptDecidableEq {ε α : Type} [DecidableEq ε] [DecidableEq α] :
    DecidableEq (Except ε α) := fun a b =>
  match a, b with
  | Except.error e, Except.error f =>
    if h : e = f then Decidable.isTrue (by rw [h]) else
      Decidable.isFalse (by intro hh; injection hh with hh; exact h hh)
  | Except.error _, Except.ok _ => Decidable.isFalse (by intro hh; cases hh)
  | Except.ok _, Except.error _ => Decidable.isFalse (by intro hh; cases hh)
  | Except.ok x, Except.ok y =>
    if h : x = y then Decidable.isTrue (by rw [h]) else
      Decidable.isFalse (by intro hh; injection hh with hh; exact h hh)

/-- A four-page example: page 0 links to page 2, pages 1 and 2 are identical
sinks, page 3 links to page 1 with the same content as page 0.  During the
single pass, page 2 is merged into page 1, which recomputes the fingerprint of page 0 after page 0 was already kept; page 3 then fails to match. -/
def cexPages : List GameView :=
  [⟨5, [some 2]⟩, ⟨7, []⟩, ⟨7, []⟩, ⟨5, [some 1]⟩]

/-- The result of `reduce_views cexPages true`. -/
def cexResult : ReduceResult :=
  ⟨[0, 1, 3], [none, none, some 1, none], [1], 1, 25⟩

/-- An artificial pass state in which the next scanned page both matches a
registered fingerprint and already resolves to the identifier of its
representative. -/
def cexAssertState : RState Trace :=
  ⟨[none, some 0], fun _ => (0, []), [((0, []), 0)], [0]⟩

/-! ## Fingerprint-function independence (determinism) -/

/-- Simulation relation between a run using the identity fingerprint and a run
using fingerprint function `h`. -/
def RelState {H : Type} (h : Trace → H) (stA : RState Trace) (stB : RState H) : Prop :=
  stB.redir = stA.redir ∧ stB.filtered = stA.filtered ∧
  (∀ p, stB.cache p = h (stA.cache p)) ∧
  stB.fpMap = stA.fpMap.map (fun e => (h e.1, e.2))

/-- A two-page example for C7: page 0 is a self-loop whose content no other
page shares. -/
def cexSelf : List GameView :=
  [⟨1, [some 0]⟩, ⟨2, []⟩]

/-- The result of `reduce_views cexSelf` (no page is removed). -/
def cexSelfResult : ReduceResult :=
  ⟨[0, 1], [none, none], [0], 0, 0⟩

/-! ## The first pass on freshly built fingerprints -/

/-- No action-slot target of page `p` has been redirected. -/
def NoTargetRedir (pages : List GameView) (redir : Redir) (p : Nat) : Prop :=
  ∀ d, some d ∈ (pages.getD p default).actions → rget redir d = none

/-- The freshness invariant of the first pass of a run: the cached fingerprint
of any page none of whose targets has yet been redirected is still the freshly
built one, and any kept such page is registered in the map under that fresh
fingerprint. -/
structure FreshInv (pages : List GameView) (rest : List Nat) (st : RState Trace) : Prop where
  base : PassInv pages (fun t => t) rest st
  fresh_cache : ∀ p, NoTargetRedir pages st.redir p →
    st.cache p = renderTrace pages (List.replicate pages.length none) p
  fresh_keys : ∀ r ∈ st.filtered, NoTargetRedir pages st.redir r →
    (renderTrace pages (List.replicate pages.length none) r, r) ∈ st.fpMap

/-- The state after the first (and only) pass of `reduce_views cexPages`. -/
def cexPassState : RState Trace :=
  ⟨[none, none, some 1, none],
   fun p => if p = 0 then (5, [some 1])
     else renderTrace cexPages (List.replicate cexPages.length none) p,
   [((5, [some 1]), 3), ((7, []), 1), ((5, [some 2]), 0)],
   [0, 1, 3]⟩

/-! ## Theorems -/

theorem rget_replicate (n p : Nat) : rget (List.replicate n (none : Option Nat)) p = none := by
  simp only [rget, List.getD_eq_getElem?_getD, List.getElem?_replicate]
  split <;> rfl

theorem rget_of_le {redir : Redir} {p : Nat} (h : redir.length ≤ p) : rget redir p = none :=
  List.getD_eq_default _ _ h

theorem rget_set_self {redir : Redir} {i : Nat} {v : Option Nat} (h : i < redir.length) :
    rget (redir.set i v) i = v := by
  simp [rget, List.getD_eq_getElem?_getD, List.getElem?_set_self h]

theorem rget_set_ne {redir : Redir} {i p : Nat} {v : Option Nat} (h : i ≠ p) :
    rget (redir.set i v) p = rget redir p := by
  simp [rget, List.getD_eq_getElem?_getD, List.getElem?_set_ne h]

theorem resolveAux_of_none {redir : Redir} {t : Nat} (h : rget redir t = none) :
    ∀ fuel, resolveAux redir fuel t = t
  | 0 => rfl
  | fuel + 1 => by simp [resolveAux, h]

theorem resolve_of_none {redir : Redir} {t : Nat} (h : rget redir t = none) :
    resolve redir t = t :=
  resolveAux_of_none h _

theorem rget_resolveAux {redir : Redir} (hd : RedirDecr redir) :
    ∀ fuel t, t < fuel → rget redir (resolveAux redir fuel t) = none := by
  intro fuel
  induction fuel with
  | zero => intro t ht; omega
  | succ fuel ih =>
    intro t ht
    cases hq : rget redir t with
    | none => simp [resolveAux, hq]
    | some q =>
      have hqt : q < t := hd t q hq
      simpa [resolveAux, hq] using ih q (by omega)

/-- Under a decreasing redirect table, `resolve` always reaches an
unredirected root. -/
theorem rget_resolve {redir : Redir} (hd : RedirDecr redir) (t : Nat) :
    rget redir (resolve redir t) = none := by
  by_cases h : t < redir.length
  · exact rget_resolveAux hd _ t h
  · rw [resolve_of_none (rget_of_le (by omega))]
    exact rget_of_le (by omega)

theorem resolveAux_le {redir : Redir} (hd : RedirDecr redir) :
    ∀ fuel t, resolveAux redir fuel t ≤ t := by
  intro fuel
  induction fuel with
  | zero => intro t; exact Nat.le_refl t
  | succ fuel ih =>
    intro t
    cases hq : rget redir t with
    | none => simp [resolveAux, hq]
    | some q =>
      have := hd t q hq
      calc resolveAux redir (fuel + 1) t = resolveAux redir fuel q := by simp [resolveAux, hq]
        _ ≤ q := ih q
        _ ≤ t := by omega

theorem resolve_le {redir : Redir} (hd : RedirDecr redir) (t : Nat) :
    resolve redir t ≤ t :=
  resolveAux_le hd _ t

/-! ## Lemmas about the fingerprint map, incoming edges and the cache -/

theorem lookupFp_eq_none {H : Type} [DecidableEq H] {m : List (H × Nat)} {k : H}
    (h : ∀ e ∈ m, e.1 ≠ k) : lookupFp m k = none := by
  induction m with
  | nil => rfl
  | cons e rest ih =>
    have h1 : e.1 ≠ k := h e (List.mem_cons_self e rest)
    obtain ⟨k2, v⟩ := e
    simp only [lookupFp]
    rw [if_neg (fun hk => h1 (by simpa using hk.symm))]
    exact ih (fun e he => h e (List.mem_cons_of_mem _ he))

theorem lookupFp_none_forall {H : Type} [DecidableEq H] {m : List (H × Nat)} {k : H}
    (h : lookupFp m k = none) : ∀ e ∈ m, e.1 ≠ k := by
  induction m with
  | nil => intro e he; cases he
  | cons e rest ih =>
    obtain ⟨k2, v⟩ := e
    by_cases hk : k = k2
    · simp [lookupFp, hk] at h
    · intro e2 he2
      rcases List.mem_cons.mp he2 with h1 | h1
      · subst h1; simpa using fun hk2 => hk hk2.symm
      · exact ih (by simpa [lookupFp, hk] using h) e2 h1

theorem lookupFp_some_mem {H : Type} [DecidableEq H] {m : List (H × Nat)} {k : H} {r : Nat}
    (h : lookupFp m k = some r) : (k, r) ∈ m := by
  induction m with
  | nil => cases h
  | cons e rest ih =>
    obtain ⟨k2, v⟩ := e
    by_cases hk : k = k2
    · subst hk
      have hv : v = r := by simpa [lookupFp] using h
      subst hv
      exact List.mem_cons_self _ _
    · exact List.mem_cons_of_mem _ (ih (by simpa [lookupFp, hk] using h))

theorem mem_incomingPages {pages : List GameView} {t j : Nat} :
    j ∈ incomingPages pages t ↔
      j < pages.length ∧ some t ∈ (pages.getD j default).actions := by
  simp only [incomingPages, List.mem_flatMap, List.mem_range, List.mem_filterMap]
  constructor
  · rintro ⟨a, ha, b, hb, hab⟩
    by_cases hbt : b = some t
    · subst hbt
      have haj : a = j := by simpa using hab
      subst haj
      exact ⟨ha, hb⟩
    · simp [hbt] at hab
  · rintro ⟨hj, ht⟩
    exact ⟨j, hj, some t, ht, by simp⟩

theorem recomputeAll_of_not_mem {H : Type} {pages : List GameView} {h : Trace → H}
    {redir2 : Redir} {p : Nat} :
    ∀ {js : List Nat} {c : Nat → H}, p ∉ js → recomputeAll pages h redir2 js c p = c p := by
  intro js
  induction js with
  | nil => intro c _; rfl
  | cons j rest ih =>
    intro c hp
    have hpj : p ≠ j := fun hh => hp (hh ▸ List.mem_cons_self j rest)
    have : recomputeAll pages h redir2 (j :: rest) c = recomputeAll pages h redir2 rest
        (updateCache c j (h (renderTrace pages redir2 j))) := rfl
    rw [this, ih (fun hh => hp (List.mem_cons_of_mem _ hh))]
    simp [updateCache, hpj]

theorem recomputeAll_cases {H : Type} (pages : List GameView) (h : Trace → H)
    (redir2 : Redir) (p : Nat) :
    ∀ (js : List Nat) (c : Nat → H),
      recomputeAll pages h redir2 js c p = c p ∨
      recomputeAll pages h redir2 js c p = h (renderTrace pages redir2 p) := by
  intro js
  induction js with
  | nil => intro c; exact Or.inl rfl
  | cons j rest ih =>
    intro c
    have hstep : recomputeAll pages h redir2 (j :: rest) c = recomputeAll pages h redir2 rest
        (updateCache c j (h (renderTrace pages redir2 j))) := rfl
    rw [hstep]
    rcases ih (updateCache c j (h (renderTrace pages redir2 j))) with h1 | h1
    · rw [h1]
      by_cases hpj : p = j
      · subst hpj
        exact Or.inr (by simp [updateCache])
      · exact Or.inl (by simp [updateCache, hpj])
    · exact Or.inr h1

theorem scanPage_spec {H : Type} [DecidableEq H] {pages : List GameView} {h : Trace → H}
    {i : Nat} {rest : List Nat} {st : RState H}
    (inv : PassInv pages h (i :: rest) st) :
    ∃ st2, scanPage pages h st i = Except.ok st2 ∧ PassInv pages h rest st2 ∧
      ((st2.redir = st.redir ∧ st2.cache = st.cache ∧
        st2.filtered = st.filtered ++ [i] ∧ st2.fpMap = (st.cache i, i) :: st.fpMap) ∨
       (∃ r, lookupFp st.fpMap (st.cache i) = some r ∧
        st2.redir = st.redir.set i (some r) ∧ st2.filtered = st.filtered ∧
        st2.fpMap = st.fpMap ∧
        st2.cache = recomputeAll pages h st2.redir (incomingPages pages i) st.cache)) := by
  have hiMem : i ∈ i :: rest := List.mem_cons_self i rest
  have hiLt : i < pages.length := inv.restLt i hiMem
  have hiNone : rget st.redir i = none := inv.restNone i hiMem
  have hpair := List.pairwise_append.mp inv.sortedApp
  have hfiltLtI : ∀ p ∈ st.filtered, p < i := fun p hp => hpair.2.2 p hp i hiMem
  have hrestGtI : ∀ p ∈ rest, i < p := fun p hp =>
    (List.pairwise_cons.mp hpair.2.1).1 p hp
  cases hlk : lookupFp st.fpMap (st.cache i) with
  | none =>
    refine ⟨{ st with fpMap := (st.cache i, i) :: st.fpMap, filtered := st.filtered ++ [i] },
      by simp [scanPage, hlk], ?_, Or.inl ⟨rfl, rfl, rfl, rfl⟩⟩
    have hassoc : (st.filtered ++ [i]) ++ rest = st.filtered ++ (i :: rest) := by
      simp
    constructor
    case redirLen => exact inv.redirLen
    case decr => exact inv.decr
    case restLt => exact fun p hp => inv.restLt p (List.mem_cons_of_mem _ hp)
    case restNone => exact fun p hp => inv.restNone p (List.mem_cons_of_mem _ hp)
    case filtLt =>
      intro p hp
      rcases List.mem_append.mp hp with h1 | h1
      · exact inv.filtLt p h1
      · simp only [List.mem_singleton] at h1
        exact h1 ▸ hiLt
    case filtNone =>
      intro p hp
      rcases List.mem_append.mp hp with h1 | h1
      · exact inv.filtNone p h1
      · simp only [List.mem_singleton] at h1
        exact h1 ▸ hiNone
    case mapFilt =>
      intro e he
      rcases List.mem_cons.mp he with h1 | h1
      · subst h1
        exact List.mem_append.mpr (Or.inr (List.mem_singleton.mpr rfl))
      · exact List.mem_append.mpr (Or.inl (inv.mapFilt e h1))
    case sortedApp => exact hassoc ▸ inv.sortedApp
    case complete =>
      intro p hp hnone
      exact hassoc ▸ inv.complete p hp hnone
    case keysDist =>
      refine List.Pairwise.cons ?_ inv.keysDist
      intro e he
      exact fun hk => lookupFp_none_forall hlk e he hk.symm
    case keyTrace =>
      intro e he
      rcases List.mem_cons.mp he with h1 | h1
      · subst h1
        exact inv.cacheTrace i
      · exact inv.keyTrace e h1
    case cacheTrace => exact inv.cacheTrace
  | some rep =>
    have hrepMem : (st.cache i, rep) ∈ st.fpMap := lookupFp_some_mem hlk
    have hrepFilt : rep ∈ st.filtered := inv.mapFilt _ hrepMem
    have hrepNone : rget st.redir rep = none := inv.filtNone rep hrepFilt
    have hrepLtI : rep < i := hfiltLtI rep hrepFilt
    have hres : resolve st.redir i ≠ resolve st.redir rep := by
      rw [resolve_of_none hiNone, resolve_of_none hrepNone]
      omega
    have hstep : scanPage pages h st i = Except.ok
        { st with
          redir := st.redir.set i (some rep),
          cache := recomputeAll pages h (st.redir.set i (some rep))
            (incomingPages pages i) st.cache } := by
      simp [scanPage, hlk, hres]
    refine ⟨_, hstep, ?_, Or.inr ⟨rep, rfl, rfl, rfl, rfl, rfl⟩⟩
    have hiLen : i < st.redir.length := inv.redirLen ▸ hiLt
    have hrgetI : rget (st.redir.set i (some rep)) i = some rep := rget_set_self hiLen
    constructor
    case redirLen => simp [inv.redirLen]
    case decr =>
      intro p q hpq
      by_cases hpi : p = i
      · subst hpi
        rw [hrgetI] at hpq
        cases hpq
        omega
      · exact inv.decr p q (by rwa [rget_set_ne (fun hh => hpi hh.symm)] at hpq)
    case restLt => exact fun p hp => inv.restLt p (List.mem_cons_of_mem _ hp)
    case restNone =>
      intro p hp
      have : i ≠ p := by have := hrestGtI p hp; omega
      rw [rget_set_ne this]
      exact inv.restNone p (List.mem_cons_of_mem _ hp)
    case filtLt => exact inv.filtLt
    case filtNone =>
      intro p hp
      have : i ≠ p := by have := hfiltLtI p hp; omega
      rw [rget_set_ne this]
      exact inv.filtNone p hp
    case mapFilt => exact inv.mapFilt
    case sortedApp =>
      refine List.Pairwise.sublist ?_ inv.sortedApp
      exact (List.sublist_cons_self i rest).append_left st.filtered
    case complete =>
      intro p hp hnone
      have hpi : p ≠ i := by
        intro hh
        rw [hh, hrgetI] at hnone
        cases hnone
      have : p ∈ st.filtered ++ (i :: rest) :=
        inv.complete p hp (by rwa [rget_set_ne (fun hh => hpi hh.symm)] at hnone)
      rcases List.mem_append.mp this with h1 | h1
      · exact List.mem_append.mpr (Or.inl h1)
      · rcases List.mem_cons.mp h1 with h2 | h2
        · exact absurd h2 hpi
        · exact List.mem_append.mpr (Or.inr h2)
    case keysDist => exact inv.keysDist
    case keyTrace => exact inv.keyTrace
    case cacheTrace =>
      intro p
      show ∃ ρ, recomputeAll pages h (st.redir.set i (some rep))
        (incomingPages pages i) st.cache p = h (renderTrace pages ρ p)
      rcases recomputeAll_cases pages h (st.redir.set i (some rep)) p
          (incomingPages pages i) st.cache with h1 | h1
      · rw [h1]
        exact inv.cacheTrace p
      · exact ⟨_, h1⟩

theorem scanList_spec {H : Type} [DecidableEq H] {pages : List GameView} {h : Trace → H} :
    ∀ {rest : List Nat} {st : RState H}, PassInv pages h rest st →
    ∃ st2, scanList pages h rest st = Except.ok st2 ∧ PassInv pages h [] st2 ∧
      (∃ ext, st2.filtered = st.filtered ++ ext ∧ ext.length ≤ rest.length) ∧
      (∀ p, rget st2.redir p = none → rget st.redir p = none) ∧
      (st.fpMap = [] → rest ≠ [] → st2.filtered ≠ []) := by
  intro rest
  induction rest with
  | nil =>
    intro st inv
    exact ⟨st, rfl, inv, ⟨[], by simp⟩, fun p hp => hp, fun _ hne => absurd rfl hne⟩
  | cons i rest ih =>
    intro st inv
    obtain ⟨st1, hstep, inv1, hshape⟩ := scanPage_spec inv
    obtain ⟨st2, hrest, inv2, ⟨ext2, hext2, hlen2⟩, hmono2, _⟩ := ih inv1
    have hrun : scanList pages h (i :: rest) st = Except.ok st2 := by
      simp [scanList, hstep, hrest]
    refine ⟨st2, hrun, inv2, ?_, ?_, ?_⟩
    · rcases hshape with ⟨_, _, hf, _⟩ | ⟨r, _, _, hf, _, _⟩
      · exact ⟨[i] ++ ext2, by simp [hext2, hf], by simpa using Nat.add_le_add_left hlen2 1⟩
      · exact ⟨ext2, by simp [hext2, hf], le_trans hlen2 (by simp)⟩
    · intro p hp
      have h1 : rget st1.redir p = none := hmono2 p hp
      rcases hshape with ⟨hr, _, _, _⟩ | ⟨r, _, hr, _, _, _⟩
      · rwa [hr] at h1
      · by_cases hpi : p = i
        · subst hpi
          have hiLen : p < st.redir.length :=
            inv.redirLen ▸ inv.restLt p (List.mem_cons_self p rest)
          rw [hr, rget_set_self hiLen] at h1
          cases h1
        · rwa [hr, rget_set_ne (fun hh => hpi hh.symm)] at h1
    · intro hmap _
      rcases hshape with ⟨_, _, hf, _⟩ | ⟨r, hlk, _, _, _, _⟩
      · rw [hext2, hf]
        simp
      · rw [hmap] at hlk
        cases hlk

theorem loopInv_init {H : Type} (pages : List GameView) (h : Trace → H) :
    LoopInv pages h (List.range pages.length) (List.replicate pages.length none)
      (fun i => h (renderTrace pages (List.replicate pages.length none) i)) := by
  constructor
  case redirLen => simp
  case decr =>
    intro p q hpq
    rw [rget_replicate] at hpq
    cases hpq
  case restLt => intro i hi; exact List.mem_range.mp hi
  case restNone => intro i _; exact rget_replicate _ _
  case filtLt => intro i hi; cases hi
  case filtNone => intro i hi; cases hi
  case mapFilt => intro e he; cases he
  case sortedApp => simpa using List.pairwise_lt_range pages.length
  case complete => intro p hp _; simpa using hp
  case keysDist => exact List.Pairwise.nil
  case keyTrace => intro e he; cases he
  case cacheTrace => intro p; exact ⟨List.replicate pages.length none, rfl⟩

theorem passInv_nil_loopInv {H : Type} {pages : List GameView} {h : Trace → H}
    {st2 : RState H} (inv : PassInv pages h [] st2) :
    LoopInv pages h st2.filtered st2.redir st2.cache := by
  constructor
  case redirLen => exact inv.redirLen
  case decr => exact inv.decr
  case restLt => exact inv.filtLt
  case restNone => exact inv.filtNone
  case filtLt => intro i hi; cases hi
  case filtNone => intro i hi; cases hi
  case mapFilt => intro e he; cases he
  case sortedApp => simpa using inv.sortedApp
  case complete => intro p hp hnone; simpa using inv.complete p hp hnone
  case keysDist => exact List.Pairwise.nil
  case keyTrace => intro e he; cases he
  case cacheTrace => exact inv.cacheTrace

/-- Unfolding of one `while True` iteration, given the outcome of its pass. -/
theorem loopAux_succ_eq {H : Type} [DecidableEq H] {pages : List GameView} {h : Trace → H}
    {mp : Bool} {fuel : Nat} {working : List Nat} {redir : Redir} {cache : Nat → H}
    {total : Nat} {acc : List Nat} {st2 : RState H}
    (hscan : scanList pages h working ⟨redir, cache, [], []⟩ = Except.ok st2) :
    loopAux pages h mp (fuel + 1) working redir cache total acc =
      if stopCond (working.length - st2.filtered.length) mp then
        (if pages.length = 0 then Except.error RErr.divByZero
         else Except.ok ⟨st2.filtered, st2.redir,
           acc ++ [working.length - st2.filtered.length],
           total + (working.length - st2.filtered.length),
           mkRat (100 * ((total + (working.length - st2.filtered.length) : ℕ) : ℤ))
             pages.length⟩)
      else loopAux pages h mp fuel st2.filtered st2.redir st2.cache
        (total + (working.length - st2.filtered.length))
        (acc ++ [working.length - st2.filtered.length]) := by
  simp only [loopAux, hscan]

/-- Master lemma for the `while True` loop: under the loop invariant and with
fuel above the pass bound, the loop returns (no fuel-out and no assertion
failure), the empty input ends in the `ZeroDivisionError`, and otherwise the
result satisfies the final characterization, its pass trace consists of passes
that all failed the stopping condition except the last one, and the number of
passes is bounded by the fuel. -/
theorem loopAux_run {H : Type} [DecidableEq H] {pages : List GameView} {h : Trace → H}
    (mp : Bool) :
    ∀ (fuel : Nat) (working : List Nat) (redir : Redir) (cache : Nat → H)
      (total : Nat) (acc : List Nat),
    LoopInv pages h working redir cache →
    working.length / MIN_REMOVED_VIEWS_TO_GO_ON < fuel →
    (pages.length = 0 ∧
      loopAux pages h mp fuel working redir cache total acc = Except.error RErr.divByZero) ∨
    (∃ res, loopAux pages h mp fuel working redir cache total acc = Except.ok res ∧
      FinalInv pages res ∧
      (working ≠ [] → res.survivors ≠ []) ∧
      (∃ suf, res.passRemovals = acc ++ suf ∧ suf ≠ [] ∧
        (∀ k, k + 1 < suf.length → stopCond (suf.getD k 0) mp = false) ∧
        stopCond (suf.getD (suf.length - 1) 0) mp = true) ∧
      res.passRemovals.length ≤ acc.length + fuel) := by
  intro fuel
  induction fuel with
  | zero =>
    intro working redir cache total acc _ hfuel
    exact absurd hfuel (Nat.not_lt_zero _)
  | succ fuel ih =>
    intro working redir cache total acc inv hfuel
    obtain ⟨st2, hscan, inv2, ⟨ext, hext, hlen⟩, _, hne⟩ := scanList_spec inv
    have hfl : st2.filtered.length ≤ working.length := by
      rw [hext]
      simpa using hlen
    rw [loopAux_succ_eq hscan]
    by_cases hstop : stopCond (working.length - st2.filtered.length) mp = true
    · rw [if_pos hstop]
      by_cases hn : pages.length = 0
      · left
        exact ⟨hn, by rw [if_pos hn]⟩
      · right
        rw [if_neg hn]
        refine ⟨_, rfl, ?_, ?_, ?_, ?_⟩
        · refine ⟨inv2.redirLen, inv2.decr, by simpa using inv2.sortedApp, ?_⟩
          intro p
          constructor
          · intro hp
            exact ⟨inv2.filtLt p hp, inv2.filtNone p hp⟩
          · intro hp
            simpa using inv2.complete p hp.1 hp.2
        · intro hw
          exact hne rfl hw
        · refine ⟨[working.length - st2.filtered.length], rfl, by simp, ?_, ?_⟩
          · intro k hk
            simp at hk
          · simpa using hstop
        · simp
    · rw [if_neg hstop]
      have hmp : mp = true := by
        cases mp
        · simp [stopCond] at hstop
        · rfl
      have hrem : MIN_REMOVED_VIEWS_TO_GO_ON ≤ working.length - st2.filtered.length := by
        by_contra hlt
        apply hstop
        simp only [stopCond, hmp, Bool.not_true, Bool.or_eq_true, beq_iff_eq,
          decide_eq_true_eq]
        omega
      have hrem0 : 0 < working.length - st2.filtered.length := by
        have : 0 < MIN_REMOVED_VIEWS_TO_GO_ON := by norm_num [MIN_REMOVED_VIEWS_TO_GO_ON]
        omega
      have hnext : st2.filtered.length + MIN_REMOVED_VIEWS_TO_GO_ON ≤ working.length := by
        omega
      have hfuel2 : st2.filtered.length / MIN_REMOVED_VIEWS_TO_GO_ON < fuel := by
        have h25 : 0 < MIN_REMOVED_VIEWS_TO_GO_ON := by norm_num [MIN_REMOVED_VIEWS_TO_GO_ON]
        have hdiv : st2.filtered.length / MIN_REMOVED_VIEWS_TO_GO_ON + 1 ≤
            working.length / MIN_REMOVED_VIEWS_TO_GO_ON := by
          calc st2.filtered.length / MIN_REMOVED_VIEWS_TO_GO_ON + 1
              = (st2.filtered.length + MIN_REMOVED_VIEWS_TO_GO_ON) /
                MIN_REMOVED_VIEWS_TO_GO_ON := (Nat.add_div_right _ h25).symm
            _ ≤ working.length / MIN_REMOVED_VIEWS_TO_GO_ON :=
                Nat.div_le_div_right hnext
        omega
      have hinv2 : LoopInv pages h st2.filtered st2.redir st2.cache :=
        passInv_nil_loopInv inv2
      rcases ih st2.filtered st2.redir st2.cache
          (total + (working.length - st2.filtered.length))
          (acc ++ [working.length - st2.filtered.length]) hinv2 hfuel2 with
        ⟨hn, hrun⟩ | ⟨res, hrun, hfin, hsurv, ⟨suf, hsuf, hsufne, hsufmid, hsuflast⟩, hlen2⟩
      · exact Or.inl ⟨hn, hrun⟩
      · right
        refine ⟨res, hrun, hfin, ?_, ?_, ?_⟩
        · intro hw
          apply hsurv
          exact hne rfl hw
        · refine ⟨(working.length - st2.filtered.length) :: suf, ?_, by simp, ?_, ?_⟩
          · rw [hsuf]
            simp
          · intro k hk
            cases k with
            | zero =>
              simpa using hstop
            | succ k =>
              have hk2 : k + 1 < suf.length := by simpa using hk
              simpa using hsufmid k hk2
          · cases suf with
            | nil => exact absurd rfl hsufne
            | cons a suf2 =>
              simpa using hsuflast
        · rw [hsuf] at hlen2 ⊢
          simp only [List.length_append, List.length_singleton] at hlen2 ⊢
          omega

/-- Specialization of the master lemma to a full `reduceWith` run. -/
theorem reduceWith_run {H : Type} [DecidableEq H] (h : Trace → H) (pages : List GameView)
    (mp : Bool) :
    (pages = [] ∧ reduceWith h pages mp = Except.error RErr.divByZero) ∨
    (pages ≠ [] ∧ ∃ res, reduceWith h pages mp = Except.ok res ∧ FinalInv pages res ∧
      res.survivors ≠ [] ∧
      res.passRemovals ≠ [] ∧
      (∀ k, k + 1 < res.passRemovals.length →
        stopCond (res.passRemovals.getD k 0) mp = false) ∧
      stopCond (res.passRemovals.getD (res.passRemovals.length - 1) 0) mp = true ∧
      res.passRemovals.length ≤ pages.length / MIN_REMOVED_VIEWS_TO_GO_ON + 1) := by
  by_cases hnil : pages = []
  · left
    subst hnil
    exact ⟨rfl, rfl⟩
  · right
    have hlen0 : pages.length ≠ 0 := by
      simpa [List.length_eq_zero] using hnil
    have hfuel : (List.range pages.length).length / MIN_REMOVED_VIEWS_TO_GO_ON <
        pages.length / MIN_REMOVED_VIEWS_TO_GO_ON + 1 := by
      simp
    rcases loopAux_run mp (pages.length / MIN_REMOVED_VIEWS_TO_GO_ON + 1)
        (List.range pages.length) (List.replicate pages.length none)
        (fun i => h (renderTrace pages (List.replicate pages.length none) i)) 0 []
        (loopInv_init pages h) hfuel with ⟨h0, _⟩ | hrun
    · exact absurd h0 hlen0
    · obtain ⟨res, hrun, hfin, hsurv, ⟨suf, hsuf, hsufne, hsufmid, hsuflast⟩, hlen⟩ := hrun
      have hsuf2 : res.passRemovals = suf := by simpa using hsuf
      refine ⟨hnil, res, hrun, hfin, ?_, ?_, ?_, ?_, ?_⟩
      · apply hsurv
        simpa [List.range_eq_nil] using hlen0
      · rw [hsuf2]; exact hsufne
      · intro k hk
        rw [hsuf2] at hk ⊢
        exact hsufmid k hk
      · rw [hsuf2]
        exact hsuflast
      · simpa using hlen

/-- Every in-range page index resolves, through the final redirect table, to a
surviving page. -/
theorem final_resolve_mem {pages : List GameView} {res : ReduceResult}
    (hfin : FinalInv pages res) {t : Nat} (ht : t < pages.length) :
    resolve res.redir t ∈ res.survivors := by
  have hroot : rget res.redir (resolve res.redir t) = none := rget_resolve hfin.decr t
  have hle : resolve res.redir t ≤ t := resolve_le hfin.decr t
  exact (hfin.mem_iff _).mpr ⟨by omega, hroot⟩

theorem reduce_views_eq (pages : List GameView) (mp : Bool) :
    reduce_views pages mp = reduceWith (fun t => t) pages mp := rfl

theorem stopCond_iff (r : Nat) (m : Bool) :
    stopCond r m = true ↔ (r = 0 ∨ m = false ∨ r < MIN_REMOVED_VIEWS_TO_GO_ON) := by
  cases m <;> simp [stopCond, MIN_REMOVED_VIEWS_TO_GO_ON]

/-! ## Claim theorems -/

/-- C9: for the empty page set, `reduce_views` does not return an empty
reduced set: computing the reported removal percentage divides by the input
length and raises `ZeroDivisionError`, with or without multi-pass. -/
theorem c9_empty_input_division_by_zero :
    reduce_views [] true = Except.error RErr.divByZero ∧
    reduce_views [] false = Except.error RErr.divByZero :=
  ⟨rfl, rfl⟩

/-- C10: `reduce_views` terminates on every finite input page set: the run
never exhausts the fuel `pages.length / 25 + 1` given to the loop, and the
number of passes executed is bounded by the input page count divided by 25,
plus one. -/
theorem c10_terminates (pages : List GameView) (mp : Bool) :
    reduce_views pages mp ≠ Except.error RErr.fuelOut ∧
    (∀ res, reduce_views pages mp = Except.ok res →
      res.passRemovals.length ≤ pages.length / MIN_REMOVED_VIEWS_TO_GO_ON + 1) := by
  rw [reduce_views_eq]
  rcases reduceWith_run (fun t => t) pages mp with ⟨_, herr⟩ |
    ⟨_, res, hok, _, _, _, _, _, hlen⟩
  · rw [herr]
    exact ⟨(fun hh => by cases hh), (fun res hh => by cases hh)⟩
  · rw [hok]
    refine ⟨(fun hh => by cases hh), (fun res2 hh => ?_)⟩
    have : res = res2 := by injection hh
    exact this ▸ hlen

/-- Witness for C10 at the concrete four-page example. -/
theorem c10_witness :
    reduce_views cexPages true ≠ Except.error RErr.fuelOut ∧
    cexResult.passRemovals.length ≤ cexPages.length / MIN_REMOVED_VIEWS_TO_GO_ON + 1 :=
  ⟨(c10_terminates cexPages true).1,
   (c10_terminates cexPages true).2 cexResult (by decide)⟩

/-- C5: after each pass, the run stops if and only if the number of pages
removed in that pass is zero, the multi-pass toggle is off, or the removed
count is below the threshold 25: in the recorded per-pass removal trace, every
pass except the last fails this disjunction (so the filtered list became the
next working list), and the final pass satisfies it. -/
theorem c5_stopping_condition (pages : List GameView) (mp : Bool) (res : ReduceResult)
    (hok : reduce_views pages mp = Except.ok res) :
    res.passRemovals ≠ [] ∧
    (∀ k, k + 1 < res.passRemovals.length →
      ¬(res.passRemovals.getD k 0 = 0 ∨ mp = false ∨
        res.passRemovals.getD k 0 < MIN_REMOVED_VIEWS_TO_GO_ON)) ∧
    (res.passRemovals.getD (res.passRemovals.length - 1) 0 = 0 ∨ mp = false ∨
      res.passRemovals.getD (res.passRemovals.length - 1) 0 <
        MIN_REMOVED_VIEWS_TO_GO_ON) := by
  rw [reduce_views_eq] at hok
  rcases reduceWith_run (fun t => t) pages mp with ⟨_, herr⟩ |
    ⟨_, res2, hok2, _, _, htne, hmid, hlast, _⟩
  · rw [herr] at hok
    cases hok
  · rw [hok2] at hok
    have hres : res2 = res := by injection hok
    subst hres
    refine ⟨htne, ?_, (stopCond_iff _ _).mp hlast⟩
    intro k hk
    have := hmid k hk
    intro hdisj
    rw [(stopCond_iff _ _).mpr hdisj] at this
    cases this

/-- Witness for C5 at the concrete four-page example: its single pass removed
one page, which is below the threshold, so the run stopped after it. -/
theorem c5_witness :
    cexResult.passRemovals ≠ [] ∧
    (∀ k, k + 1 < cexResult.passRemovals.length →
      ¬(cexResult.passRemovals.getD k 0 = 0 ∨ true = false ∨
        cexResult.passRemovals.getD k 0 < MIN_REMOVED_VIEWS_TO_GO_ON)) ∧
    (cexResult.passRemovals.getD (cexResult.passRemovals.length - 1) 0 = 0 ∨
      true = false ∨
      cexResult.passRemovals.getD (cexResult.passRemovals.length - 1) 0 <
        MIN_REMOVED_VIEWS_TO_GO_ON) :=
  c5_stopping_condition cexPages true cexResult (by decide)

/-- C4: whenever the page being scanned has a cached fingerprint matching a
prior representative and already carries the current identifier of the representative, the scan aborts with the fatal assertion error (`Prevent infinite
loop`) instead of redirecting the page, and the rest of the pass is not run. -/
theorem c4_duplicate_same_identifier_fatal (pages : List GameView) (st : RState Trace)
    (i rep : Nat) (rest : List Nat)
    (hlk : lookupFp st.fpMap (st.cache i) = some rep)
    (hid : resolve st.redir i = resolve st.redir rep) :
    scanPage pages (fun t => t) st i = Except.error RErr.assertLoop ∧
    scanList pages (fun t => t) (i :: rest) st = Except.error RErr.assertLoop := by
  have h1 : scanPage pages (fun t => t) st i = Except.error RErr.assertLoop := by
    simp [scanPage, hlk, hid]
  exact ⟨h1, by simp [scanList, h1]⟩

/-- Witness for C4 at a concrete state. -/
theorem c4_witness :
    scanPage [] (fun t => t) cexAssertState 1 = Except.error RErr.assertLoop ∧
    scanList [] (fun t => t) [1] cexAssertState = Except.error RErr.assertLoop :=
  c4_duplicate_same_identifier_fatal [] cexAssertState 1 0 [] rfl rfl

/-- C2: for every input on which `reduce_views` returns, and every page in the
reduced output, every non-empty action slot resolves — by current page
identifier, after redirection — to a page present in the reduced output. -/
theorem c2_no_dangling_references (pages : List GameView) (mp : Bool) (res : ReduceResult)
    (hok : reduce_views pages mp = Except.ok res)
    (hwf : ∀ gv ∈ pages, ∀ a ∈ gv.actions, ∀ t, a = some t → t < pages.length) :
    ∀ i ∈ res.survivors, ∀ a ∈ (pages.getD i default).actions, ∀ t, a = some t →
      resolve res.redir t ∈ res.survivors := by
  rw [reduce_views_eq] at hok
  rcases reduceWith_run (fun t => t) pages mp with ⟨_, herr⟩ |
    ⟨_, res2, hok2, hfin, _⟩
  · rw [herr] at hok
    cases hok
  · rw [hok2] at hok
    have hres : res2 = res := by injection hok
    subst hres
    intro i hi a ha t hat
    have hiLt : i < pages.length := ((hfin.mem_iff i).mp hi).1
    have hmem : pages.getD i default ∈ pages := by
      rw [List.getD_eq_getElem?_getD, List.getElem?_eq_getElem hiLt]
      exact List.getElem_mem hiLt
    have htLt : t < pages.length := hwf _ hmem a ha t hat
    exact final_resolve_mem hfin htLt

/-- Witness for C2: in the four-page example, the slot of surviving page 0 points
at the merged page 2, which resolves to surviving page 1. -/
theorem c2_witness : resolve cexResult.redir 2 ∈ cexResult.survivors :=
  c2_no_dangling_references cexPages true cexResult (by decide) (by decide)
    0 (by decide) (some 2) (by decide) 2 rfl

/-- Mapping a strictly sorted, in-range index list through `getD` yields a
sublist. -/
theorem sorted_map_getD_sublist {α : Type} [Inhabited α] :
    ∀ (l : List α) (is : List Nat), is.Pairwise (fun a b => a < b) →
      (∀ i ∈ is, i < l.length) →
      (is.map (fun i => l.getD i default)).Sublist l := by
  intro l
  induction l with
  | nil =>
    intro is _ hbound
    cases is with
    | nil => exact List.Sublist.refl []
    | cons i is2 =>
      have := hbound i (List.mem_cons_self i is2)
      simp at this
  | cons a l2 ih =>
    intro is hsorted hbound
    cases is with
    | nil => exact List.nil_sublist _
    | cons i is2 =>
      have hpair := List.pairwise_cons.mp hsorted
      by_cases hi : i = 0
      · subst hi
        have hpos : ∀ j ∈ is2, 1 ≤ j := fun j hj => hpair.1 j hj
        have hmap : is2.map (fun j => (a :: l2).getD j default) =
            (is2.map (fun j => j - 1)).map (fun j => l2.getD j default) := by
          rw [List.map_map]
          apply List.map_congr_left
          intro j hj
          have h1 : 1 ≤ j := hpos j hj
          obtain ⟨k, rfl⟩ : ∃ k, j = k + 1 := ⟨j - 1, by omega⟩
          simp
        have hsub : ((is2.map (fun j => j - 1)).map
            (fun j => l2.getD j default)).Sublist l2 := by
          apply ih
          · rw [List.pairwise_map]
            refine hpair.2.imp_of_mem ?_
            intro b c hb hc hbc
            have := hpos b hb
            omega
          · intro j hj
            rw [List.mem_map] at hj
            obtain ⟨j2, hj2, rfl⟩ := hj
            have h1 := hpos j2 hj2
            have h2 := hbound j2 (List.mem_cons_of_mem _ hj2)
            simp at h2
            omega
        show ((0 :: is2).map (fun j => (a :: l2).getD j default)).Sublist (a :: l2)
        rw [List.map_cons, hmap]
        exact List.Sublist.cons₂ a hsub
      · have hpos : ∀ j ∈ i :: is2, 1 ≤ j := by
          intro j hj
          rcases List.mem_cons.mp hj with h1 | h1
          · omega
          · have := hpair.1 j h1
            omega
        have hmap : (i :: is2).map (fun j => (a :: l2).getD j default) =
            ((i :: is2).map (fun j => j - 1)).map (fun j => l2.getD j default) := by
          rw [List.map_map]
          apply List.map_congr_left
          intro j hj
          have h1 : 1 ≤ j := hpos j hj
          obtain ⟨k, rfl⟩ : ∃ k, j = k + 1 := ⟨j - 1, by omega⟩
          simp
        have hsub : (((i :: is2).map (fun j => j - 1)).map
            (fun j => l2.getD j default)).Sublist l2 := by
          apply ih
          · rw [List.pairwise_map]
            refine hsorted.imp_of_mem ?_
            intro b c hb hc hbc
            have := hpos b hb
            omega
          · intro j hj
            rw [List.mem_map] at hj
            obtain ⟨j2, hj2, rfl⟩ := hj
            have h1 := hpos j2 hj2
            have h2 := hbound j2 hj2
            simp at h2
            omega
        rw [hmap]
        exact List.Sublist.cons a hsub

/-- C8: between the input and the returned reduced set, only page identifiers
change (by redirection, recorded in the redirect table): the returned game
views themselves are unchanged input pages — the output view at each survivor
index is exactly the input page there, with identical content and action
slots, and the output list is a sublist of the input. -/
theorem c8_only_identifier_mutated (pages : List GameView) (mp : Bool) (res : ReduceResult)
    (hok : reduce_views pages mp = Except.ok res) :
    (∀ i ∈ res.survivors, pages.getD i default ∈ outputViews pages res) ∧
    (outputViews pages res).Sublist pages := by
  rw [reduce_views_eq] at hok
  rcases reduceWith_run (fun t => t) pages mp with ⟨_, herr⟩ |
    ⟨_, res2, hok2, hfin, _⟩
  · rw [herr] at hok
    cases hok
  · rw [hok2] at hok
    have hres : res2 = res := by injection hok
    subst hres
    constructor
    · intro i hi
      exact List.mem_map.mpr ⟨i, hi, rfl⟩
    · apply sorted_map_getD_sublist
      · exact hfin.sorted
      · intro i hi
        exact ((hfin.mem_iff i).mp hi).1

/-- Witness for C8 at the concrete four-page example. -/
theorem c8_witness :
    (∀ i ∈ cexResult.survivors, cexPages.getD i default ∈ outputViews cexPages cexResult) ∧
    (outputViews cexPages cexResult).Sublist cexPages :=
  c8_only_identifier_mutated cexPages true cexResult (by decide)

theorem lookupFp_map {H : Type} [DecidableEq H] {h : Trace → H}
    (hinj : Function.Injective h) :
    ∀ (m : List (Trace × Nat)) (k : Trace),
      lookupFp (m.map (fun e => (h e.1, e.2))) (h k) = lookupFp m k := by
  intro m
  induction m with
  | nil => intro k; rfl
  | cons e rest ih =>
    intro k
    obtain ⟨k2, v⟩ := e
    by_cases hk : k = k2
    · subst hk
      simp [lookupFp]
    · have hk2 : h k ≠ h k2 := fun hh => hk (hinj hh)
      simp only [List.map_cons, lookupFp, if_neg hk, if_neg hk2]
      exact ih k

theorem recomputeAll_rel {H : Type} (h : Trace → H) (pages : List GameView)
    (redir2 : Redir) :
    ∀ (js : List Nat) (cA : Nat → Trace) (cB : Nat → H), (∀ p, cB p = h (cA p)) →
      ∀ p, recomputeAll pages h redir2 js cB p =
        h (recomputeAll pages (fun t => t) redir2 js cA p) := by
  intro js
  induction js with
  | nil => intro cA cB hc p; exact hc p
  | cons j rest ih =>
    intro cA cB hc p
    have hstep1 : recomputeAll pages h redir2 (j :: rest) cB =
        recomputeAll pages h redir2 rest
          (updateCache cB j (h (renderTrace pages redir2 j))) := rfl
    have hstep2 : recomputeAll pages (fun t => t) redir2 (j :: rest) cA =
        recomputeAll pages (fun t => t) redir2 rest
          (updateCache cA j (renderTrace pages redir2 j)) := rfl
    rw [hstep1, hstep2]
    apply ih
    intro q
    by_cases hq : q = j <;> simp [updateCache, hq, hc q]

theorem scanPage_rel {H : Type} [DecidableEq H] {h : Trace → H}
    (hinj : Function.Injective h) (pages : List GameView) {stA : RState Trace}
    {stB : RState H} (hrel : RelState h stA stB) (i : Nat) :
    (∃ e, scanPage pages (fun t => t) stA i = Except.error e ∧
      scanPage pages h stB i = Except.error e) ∨
    (∃ stA2 stB2, scanPage pages (fun t => t) stA i = Except.ok stA2 ∧
      scanPage pages h stB i = Except.ok stB2 ∧ RelState h stA2 stB2) := by
  obtain ⟨hredir, hfilt, hcache, hmap⟩ := hrel
  have hlkB : lookupFp stB.fpMap (stB.cache i) =
      lookupFp stA.fpMap (stA.cache i) := by
    rw [hmap, hcache i, lookupFp_map hinj]
  cases hlk : lookupFp stA.fpMap (stA.cache i) with
  | none =>
    right
    refine ⟨{ stA with
                fpMap := (stA.cache i, i) :: stA.fpMap,
                filtered := stA.filtered ++ [i] },
      { stB with
          fpMap := (stB.cache i, i) :: stB.fpMap,
          filtered := stB.filtered ++ [i] },
      by simp [scanPage, hlk], by simp [scanPage, hlkB, hlk], ?_, ?_, ?_, ?_⟩
    · exact hredir
    · simp [hfilt]
    · exact hcache
    · simp [hmap, hcache i]
  | some rep =>
    by_cases hid : resolve stA.redir i = resolve stA.redir rep
    · left
      refine ⟨RErr.assertLoop, by simp [scanPage, hlk, hid], ?_⟩
      simp [scanPage, hlkB, hlk, hredir, hid]
    · right
      have hidB : ¬(resolve stB.redir i = resolve stB.redir rep) := by
        rw [hredir]
        exact hid
      refine ⟨{ stA with
                  redir := stA.redir.set i (some rep),
                  cache := recomputeAll pages (fun t => t) (stA.redir.set i (some rep))
                    (incomingPages pages i) stA.cache },
        { stB with
            redir := stB.redir.set i (some rep),
            cache := recomputeAll pages h (stB.redir.set i (some rep))
              (incomingPages pages i) stB.cache },
        by simp [scanPage, hlk, hid], by simp [scanPage, hlkB, hlk, hidB], ?_, ?_, ?_, ?_⟩
      · simp [hredir]
      · exact hfilt
      · intro p
        simp only [hredir]
        exact recomputeAll_rel h pages _ _ _ _ hcache p
      · exact hmap

theorem scanList_rel {H : Type} [DecidableEq H] {h : Trace → H}
    (hinj : Function.Injective h) (pages : List GameView) :
    ∀ (rest : List Nat) {stA : RState Trace} {stB : RState H},
      RelState h stA stB →
      (∃ e, scanList pages (fun t => t) rest stA = Except.error e ∧
        scanList pages h rest stB = Except.error e) ∨
      (∃ stA2 stB2, scanList pages (fun t => t) rest stA = Except.ok stA2 ∧
        scanList pages h rest stB = Except.ok stB2 ∧ RelState h stA2 stB2) := by
  intro rest
  induction rest with
  | nil =>
    intro stA stB hrel
    exact Or.inr ⟨stA, stB, rfl, rfl, hrel⟩
  | cons i rest ih =>
    intro stA stB hrel
    rcases scanPage_rel hinj pages hrel i with ⟨e, heA, heB⟩ |
      ⟨stA1, stB1, hokA, hokB, hrel1⟩
    · left
      exact ⟨e, by simp [scanList, heA], by simp [scanList, heB]⟩
    · rcases ih hrel1 with ⟨e, heA, heB⟩ | ⟨stA2, stB2, hokA2, hokB2, hrel2⟩
      · left
        exact ⟨e, by simp [scanList, hokA, heA], by simp [scanList, hokB, heB]⟩
      · right
        exact ⟨stA2, stB2, by simp [scanList, hokA, hokA2],
          by simp [scanList, hokB, hokB2], hrel2⟩

theorem loopAux_rel {H : Type} [DecidableEq H] {h : Trace → H}
    (hinj : Function.Injective h) {pages : List GameView} {mp : Bool} :
    ∀ (fuel : Nat) (working : List Nat) (redir : Redir) (cacheA : Nat → Trace)
      (cacheB : Nat → H) (total : Nat) (acc : List Nat),
      (∀ p, cacheB p = h (cacheA p)) →
      loopAux pages h mp fuel working redir cacheB total acc =
        loopAux pages (fun t => t) mp fuel working redir cacheA total acc := by
  intro fuel
  induction fuel with
  | zero => intro working redir cacheA cacheB total acc _; rfl
  | succ fuel ih =>
    intro working redir cacheA cacheB total acc hcache
    have hrel : RelState h ⟨redir, cacheA, [], []⟩ ⟨redir, cacheB, [], []⟩ :=
      ⟨rfl, rfl, hcache, rfl⟩
    rcases scanList_rel hinj pages working hrel with ⟨e, heA, heB⟩ |
      ⟨stA2, stB2, hokA, hokB, hrel2⟩
    · simp [loopAux, heA, heB]
    · obtain ⟨hredir2, hfilt2, hcache2, _⟩ := hrel2
      simp only [loopAux, hokA, hokB, hredir2, hfilt2]
      by_cases hstop : stopCond (working.length - stA2.filtered.length) mp = true
      · simp [hstop]
      · simp only [hstop, if_neg, Bool.false_eq_true, if_false]
        exact ih _ _ _ _ _ _ hcache2

/-- A run of `reduceWith` with any injective fingerprint function is
indistinguishable from the reference run that compares raw traces. -/
theorem reduceWith_eq_of_injective {H : Type} [DecidableEq H] {h : Trace → H}
    (hinj : Function.Injective h) (pages : List GameView) (mp : Bool) :
    reduceWith h pages mp = reduce_views pages mp := by
  rw [reduce_views_eq]
  exact loopAux_rel hinj _ _ _ _ _ _ _ (fun p => rfl)

/-- C3: `reduce_views` is deterministic — for a fixed page set and fixed
identifier assignment, any two runs with the same multipass flag (modelled as
runs with arbitrary injective trace-fingerprint functions, covering repeated
runs and different hash seeds) return identical reduced page sets, identical
redirects and pass traces, and the same reported removal percentage. -/
theorem c3_deterministic {H1 H2 : Type} [DecidableEq H1] [DecidableEq H2]
    (h1 : Trace → H1) (h2 : Trace → H2) (hinj1 : Function.Injective h1)
    (hinj2 : Function.Injective h2) (pages : List GameView) (mp : Bool) :
    reduceWith h1 pages mp = reduceWith h2 pages mp ∧
    reduceWith h1 pages mp = reduce_views pages mp := by
  have e1 := reduceWith_eq_of_injective hinj1 pages mp
  have e2 := reduceWith_eq_of_injective hinj2 pages mp
  exact ⟨e1.trans e2.symm, e1⟩

/-- Witness for C3: two concrete injective fingerprint functions on the
four-page example. -/
theorem c3_witness :
    reduceWith (fun t => t) cexPages true = reduceWith (fun t : Trace => (t, 0)) cexPages true ∧
    reduceWith (fun t => t) cexPages true = reduce_views cexPages true :=
  c3_deterministic (fun t => t) (fun t : Trace => (t, 0))
    (fun _ _ hh => hh) (fun _ _ hh => congrArg Prod.fst hh) cexPages true

/-! ## Survival of pages whose trace is shared by no other page -/

theorem scanList_keeps {pages : List GameView} {i : Nat}
    (hshare : ∀ ρ ρ2 j, j ≠ i → renderTrace pages ρ j ≠ renderTrace pages ρ2 i) :
    ∀ (rest : List Nat) (st : RState Trace), PassInv pages (fun t => t) rest st →
      i ∈ rest → ∀ st2, scanList pages (fun t => t) rest st = Except.ok st2 →
      i ∈ st2.filtered := by
  intro rest
  induction rest with
  | nil =>
    intro st _ hmem
    cases hmem
  | cons j rest ih =>
    intro st inv hmem st2 hrun
    obtain ⟨st1, hstep, inv1, hshape⟩ := scanPage_spec inv
    have hrun1 : scanList pages (fun t => t) rest st1 = Except.ok st2 := by
      rw [scanList, hstep] at hrun
      exact hrun
    by_cases hij : j = i
    · subst hij
      have hkept : st1.filtered = st.filtered ++ [j] := by
        rcases hshape with ⟨_, _, hf, _⟩ | ⟨rep, hlkrep, _, _, _, _⟩
        · exact hf
        · exfalso
          have hrepMem := lookupFp_some_mem hlkrep
          have hrepFilt := inv.mapFilt _ hrepMem
          have hrepNe : rep ≠ j := by
            have hpair := List.pairwise_append.mp inv.sortedApp
            have := hpair.2.2 rep hrepFilt j (List.mem_cons_self j rest)
            omega
          obtain ⟨ρ, hkey⟩ := inv.keyTrace _ hrepMem
          obtain ⟨ρ2, hcachej⟩ := inv.cacheTrace j
          exact hshare ρ ρ2 rep hrepNe (by rw [← hkey, hcachej])
      obtain ⟨st2b, hrunb, _, ⟨ext, hext, _⟩, _, _⟩ := scanList_spec inv1
      have hst2 : st2b = st2 := by
        rw [hrunb] at hrun1
        injection hrun1
      subst hst2
      rw [hext, hkept]
      simp
    · have hmem2 : i ∈ rest := by
        rcases List.mem_cons.mp hmem with h1 | h1
        · exact absurd h1.symm hij
        · exact h1
      exact ih st1 inv1 hmem2 st2 hrun1

theorem loopAux_keeps {pages : List GameView} {i : Nat} {mp : Bool}
    (hshare : ∀ ρ ρ2 j, j ≠ i → renderTrace pages ρ j ≠ renderTrace pages ρ2 i) :
    ∀ (fuel : Nat) (working : List Nat) (redir : Redir) (cache : Nat → Trace)
      (total : Nat) (acc : List Nat) (res : ReduceResult),
      LoopInv pages (fun t => t) working redir cache → i ∈ working →
      loopAux pages (fun t => t) mp fuel working redir cache total acc = Except.ok res →
      i ∈ res.survivors := by
  intro fuel
  induction fuel with
  | zero =>
    intro working redir cache total acc res _ _ hrun
    cases hrun
  | succ fuel ih =>
    intro working redir cache total acc res inv hmem hrun
    obtain ⟨st2, hscan, inv2, _, _, _⟩ := scanList_spec inv
    have hkeep : i ∈ st2.filtered := scanList_keeps hshare working _ inv hmem st2 hscan
    rw [loopAux_succ_eq hscan] at hrun
    by_cases hstop : stopCond (working.length - st2.filtered.length) mp = true
    · rw [if_pos hstop] at hrun
      by_cases hn : pages.length = 0
      · rw [if_pos hn] at hrun
        cases hrun
      · rw [if_neg hn] at hrun
        have : res.survivors = st2.filtered := by
          injection hrun with hh
          rw [← hh]
        rw [this]
        exact hkeep
    · rw [if_neg hstop] at hrun
      exact ih _ _ _ _ _ _ (passInv_nil_loopInv inv2) hkeep hrun

/-- C7: a page whose only action slot points to itself never triggers the
fatal same-identifier assertion (indeed no input ever does: a completed run
ends in either the ok result or the empty-input division error), and it
survives reduction as a normal unredirected page whenever no other page ever
shares its render trace. -/
theorem c7_self_loop_safe (pages : List GameView) (i : Nat)
    (hi : i < pages.length)
    (_hself : (pages.getD i default).actions = [some i]) :
    (∀ mp, reduce_views pages mp ≠ Except.error RErr.assertLoop) ∧
    ((∀ ρ ρ2 j, j ≠ i → renderTrace pages ρ j ≠ renderTrace pages ρ2 i) →
      ∀ mp res, reduce_views pages mp = Except.ok res →
        i ∈ res.survivors ∧ rget res.redir i = none) := by
  constructor
  · intro mp
    rcases reduceWith_run (fun t => t) pages mp with ⟨_, herr⟩ | ⟨_, res, hok, _⟩
    · rw [reduce_views_eq, herr]
      intro hh
      cases hh
    · rw [reduce_views_eq, hok]
      intro hh
      cases hh
  · intro hshare mp res hok
    rw [reduce_views_eq] at hok
    have hmem : i ∈ List.range pages.length := List.mem_range.mpr hi
    have hkeep : i ∈ res.survivors :=
      loopAux_keeps hshare _ _ _ _ _ _ _ (loopInv_init pages (fun t => t)) hmem hok
    refine ⟨hkeep, ?_⟩
    rcases reduceWith_run (fun t => t) pages mp with ⟨_, herr⟩ | ⟨_, res2, hok2, hfin, _⟩
    · rw [herr] at hok
      cases hok
    · rw [hok2] at hok
      have : res2 = res := by injection hok
      subst this
      exact ((hfin.mem_iff i).mp hkeep).2

theorem cexSelf_no_share :
    ∀ ρ ρ2 j, j ≠ 0 → renderTrace cexSelf ρ j ≠ renderTrace cexSelf ρ2 0 := by
  intro ρ ρ2 j hj hh
  have hc : (cexSelf.getD j default).content = (cexSelf.getD 0 default).content :=
    congrArg Prod.fst hh
  match j, hj with
  | 1, _ => exact absurd hc (by decide)
  | (n + 2), _ =>
    have hd : cexSelf.getD (n + 2) default = default :=
      List.getD_eq_default _ _ (by simp [cexSelf])
    rw [hd] at hc
    exact absurd hc (by decide)

/-- Witness for C7 at the concrete self-loop example. -/
theorem c7_witness :
    (reduce_views cexSelf true ≠ Except.error RErr.assertLoop) ∧
    (0 ∈ cexSelfResult.survivors ∧ rget cexSelfResult.redir 0 = none) :=
  ⟨(c7_self_loop_safe cexSelf 0 (by decide) (by decide)).1 true,
   (c7_self_loop_safe cexSelf 0 (by decide) (by decide)).2 cexSelf_no_share true
     cexSelfResult (by decide)⟩

/-- On pages none of whose targets are redirected in either table, the render
trace does not depend on the redirect table. -/
theorem renderTrace_eq_of_noTargetRedir {pages : List GameView} {redir redir2 : Redir}
    {p : Nat} (h1 : NoTargetRedir pages redir p) (h2 : NoTargetRedir pages redir2 p) :
    renderTrace pages redir p = renderTrace pages redir2 p := by
  unfold renderTrace
  refine congrArg _ ?_
  apply List.map_congr_left
  intro a ha
  cases a with
  | none => rfl
  | some d =>
    have e1 := resolve_of_none (h1 d ha)
    have e2 := resolve_of_none (h2 d ha)
    simp [e1, e2]

theorem noTargetRedir_replicate (pages : List GameView) (n p : Nat) :
    NoTargetRedir pages (List.replicate n none) p :=
  fun d _ => rget_replicate n d

theorem scanPage_fresh {pages : List GameView} {i : Nat} {rest : List Nat}
    {st : RState Trace} (hfr : FreshInv pages (i :: rest) st) :
    ∀ st2, scanPage pages (fun t => t) st i = Except.ok st2 → FreshInv pages rest st2 := by
  intro st2 hok
  obtain ⟨st2b, hok2, inv2, hshape⟩ := scanPage_spec hfr.base
  have hsame : st2 = st2b := by
    rw [hok2] at hok
    injection hok with hh
    exact hh.symm
  subst hsame
  rcases hshape with ⟨hr, hc, hf, hm⟩ | ⟨rep, hlkrep, hr, hf, hm, hc⟩
  · refine ⟨inv2, ?_, ?_⟩
    · intro p hp
      rw [hr] at hp
      rw [hc]
      exact hfr.fresh_cache p hp
    · intro r hrmem hp
      rw [hr] at hp
      rw [hf] at hrmem
      rw [hm]
      rcases List.mem_append.mp hrmem with h1 | h1
      · exact List.mem_cons_of_mem _ (hfr.fresh_keys r h1 hp)
      · simp only [List.mem_singleton] at h1
        subst h1
        rw [← hfr.fresh_cache r hp]
        exact List.mem_cons_self _ _
  · have hiMem : i ∈ i :: rest := List.mem_cons_self i rest
    have hiLen : i < st.redir.length :=
      hfr.base.redirLen ▸ hfr.base.restLt i hiMem
    have hsetI : rget st2.redir i = some rep := by
      rw [hr]
      exact rget_set_self hiLen
    have hmono : ∀ p, NoTargetRedir pages st2.redir p → NoTargetRedir pages st.redir p := by
      intro p hp d hd
      by_cases hdi : d = i
      · subst hdi
        exact hfr.base.restNone d hiMem
      · have := hp d hd
        rw [hr, rget_set_ne (fun hh => hdi hh.symm)] at this
        exact this
    refine ⟨inv2, ?_, ?_⟩
    · intro p hp
      have hpNotIn : p ∉ incomingPages pages i := by
        intro hpi
        have hact := (mem_incomingPages.mp hpi).2
        have := hp i hact
        rw [hsetI] at this
        cases this
      rw [hc, recomputeAll_of_not_mem hpNotIn]
      exact hfr.fresh_cache p (hmono p hp)
    · intro r hrmem hp
      rw [hf] at hrmem
      rw [hm]
      exact hfr.fresh_keys r hrmem (hmono r hp)

theorem scanList_fresh {pages : List GameView} :
    ∀ (rest : List Nat) (st : RState Trace), FreshInv pages rest st →
      ∀ st2, scanList pages (fun t => t) rest st = Except.ok st2 →
      FreshInv pages [] st2 := by
  intro rest
  induction rest with
  | nil =>
    intro st hfr st2 hrun
    have : st = st2 := by injection hrun
    exact this ▸ hfr
  | cons i rest ih =>
    intro st hfr st2 hrun
    obtain ⟨st1, hstep, _, _⟩ := scanPage_spec hfr.base
    have hfr1 : FreshInv pages rest st1 := scanPage_fresh hfr st1 hstep
    rw [scanList, hstep] at hrun
    exact ih st1 hfr1 st2 hrun

/-- The initial fresh state of a run satisfies the freshness invariant. -/
theorem freshInv_init (pages : List GameView) :
    FreshInv pages (List.range pages.length)
      ⟨List.replicate pages.length none,
       fun p => renderTrace pages (List.replicate pages.length none) p, [], []⟩ :=
  ⟨loopInv_init pages (fun t => t), fun _ _ => rfl, fun r hr => absurd hr (List.not_mem_nil r)⟩

/-- C1 as stated is false on the code: in the single pass of
`reduce_views cexPages true`, the merge of page 2 into page 1 recomputes
the fingerprint of already-kept page 0, after which page 3 — whose trace is
identical to the recomputed trace of page 0 — fails to match the map key frozen at
the registration of page 0; both pages 0 and 3 remain in the filtered list (and in
the final output) with identical render traces. -/
theorem c1_counterexample :
    reduce_views cexPages true = Except.ok cexResult ∧
    (0 : Nat) ∈ cexResult.survivors ∧ (3 : Nat) ∈ cexResult.survivors ∧
    renderTrace cexPages cexResult.redir 0 = renderTrace cexPages cexResult.redir 3 ∧
    cexResult.passRemovals = [1] := by
  refine ⟨by decide, by decide, by decide, by decide, by decide⟩

/-- C1 (amended): in the first pass of a run — working list `range`, no prior
redirections, freshly built fingerprints — any two distinct pages none of
whose action targets were dropped during the pass (so neither fingerprint
was invalidated) and whose render traces at the end of the pass
are equal are merged within the pass: at most one of them remains in the
filtered list.  (When an already-kept page is invalidated, as in
`c1_counterexample`, both pages can survive the pass.) -/
theorem c1_amended_first_pass_merge (pages : List GameView) (st2 : RState Trace)
    (hrun : scanList pages (fun t => t) (List.range pages.length)
      ⟨List.replicate pages.length none,
       fun p => renderTrace pages (List.replicate pages.length none) p, [], []⟩ =
      Except.ok st2)
    (i j : Nat) (hij : i ≠ j)
    (hnoinv_i : ∀ d, some d ∈ (pages.getD i default).actions →
      (d ∈ st2.filtered ∨ pages.length ≤ d))
    (hnoinv_j : ∀ d, some d ∈ (pages.getD j default).actions →
      (d ∈ st2.filtered ∨ pages.length ≤ d))
    (heq : renderTrace pages st2.redir i = renderTrace pages st2.redir j) :
    ¬(i ∈ st2.filtered ∧ j ∈ st2.filtered) := by
  rintro ⟨hi, hj⟩
  have hfr2 : FreshInv pages [] st2 := scanList_fresh _ _ (freshInv_init pages) st2 hrun
  have inv2 := hfr2.base
  have hnt : ∀ p, (∀ d, some d ∈ (pages.getD p default).actions →
      (d ∈ st2.filtered ∨ pages.length ≤ d)) → NoTargetRedir pages st2.redir p := by
    intro p hp d hd
    rcases hp d hd with h1 | h1
    · exact inv2.filtNone d h1
    · exact rget_of_le (by rw [inv2.redirLen]; exact h1)
  have hnti := hnt i hnoinv_i
  have hntj := hnt j hnoinv_j
  have hkey_i := hfr2.fresh_keys i hi hnti
  have hkey_j := hfr2.fresh_keys j hj hntj
  have htr_i : renderTrace pages (List.replicate pages.length none) i =
      renderTrace pages st2.redir i :=
    renderTrace_eq_of_noTargetRedir (noTargetRedir_replicate pages _ i) hnti
  have htr_j : renderTrace pages (List.replicate pages.length none) j =
      renderTrace pages st2.redir j :=
    renderTrace_eq_of_noTargetRedir (noTargetRedir_replicate pages _ j) hntj
  have hkeq : renderTrace pages (List.replicate pages.length none) i =
      renderTrace pages (List.replicate pages.length none) j := by
    rw [htr_i, htr_j, heq]
  rw [hkeq] at hkey_i
  have hsym : Symmetric (fun e1 e2 : Trace × Nat => e1.1 ≠ e2.1) :=
    fun a b hab hh => hab hh.symm
  by_cases hent : ((renderTrace pages (List.replicate pages.length none) j, i) :
      Trace × Nat) = (renderTrace pages (List.replicate pages.length none) j, j)
  · have : i = j := congrArg Prod.snd hent
    exact hij this
  · have hne := List.Pairwise.forall hsym inv2.keysDist hkey_i hkey_j hent
    exact hne rfl

theorem cexPassState_eq :
    scanList cexPages (fun t => t) (List.range cexPages.length)
      ⟨List.replicate cexPages.length none,
       fun p => renderTrace cexPages (List.replicate cexPages.length none) p, [], []⟩ =
      Except.ok cexPassState := rfl

/-- Witness for the amended C1: in the example pass, the two identical sink
pages 1 and 2, neither of which links anywhere, are indeed merged — they do
not both survive the pass. -/
theorem c1_witness :
    ¬((1 : Nat) ∈ cexPassState.filtered ∧ (2 : Nat) ∈ cexPassState.filtered) :=
  c1_amended_first_pass_merge cexPages cexPassState cexPassState_eq 1 2 (by decide)
    (fun d hd => absurd hd (List.not_mem_nil _))
    (fun d hd => absurd hd (List.not_mem_nil _))
    (by decide)

/-! ## Runs on inputs with pairwise-distinct fresh fingerprints -/

theorem scanList_distinct_aux (pages : List GameView)
    (hdist : ∀ i, i < pages.length → ∀ j, j < pages.length → i ≠ j →
      renderTrace pages (List.replicate pages.length none) i ≠
      renderTrace pages (List.replicate pages.length none) j) :
    ∀ (rest : List Nat) (st : RState Trace),
      st.redir = List.replicate pages.length none →
      st.cache = (fun p => renderTrace pages (List.replicate pages.length none) p) →
      (∀ e ∈ st.fpMap, ∃ r, r ∈ st.filtered ∧
        e = (renderTrace pages (List.replicate pages.length none) r, r)) →
      (∀ r ∈ st.filtered, r < pages.length) →
      (∀ i ∈ rest, i < pages.length) →
      (st.filtered ++ rest).Nodup →
      ∃ st2, scanList pages (fun t => t) rest st = Except.ok st2 ∧
        st2.filtered = st.filtered ++ rest ∧ st2.redir = st.redir ∧
        st2.cache = st.cache := by
  intro rest
  induction rest with
  | nil =>
    intro st _ _ _ _ _ _
    exact ⟨st, rfl, (List.append_nil _).symm, rfl, rfl⟩
  | cons i rest ih =>
    intro st hredir hcache hmap hfiltLt hrestLt hnodup
    have hiLt : i < pages.length := hrestLt i (List.mem_cons_self i rest)
    have hdisj : List.Disjoint st.filtered (i :: rest) :=
      List.disjoint_of_nodup_append hnodup
    have hlk : lookupFp st.fpMap (st.cache i) = none := by
      apply lookupFp_eq_none
      intro e he
      obtain ⟨r, hrFilt, hre⟩ := hmap e he
      have hri : r ≠ i := by
        intro hh
        exact hdisj hrFilt (hh ▸ List.mem_cons_self i rest)
      rw [hre, hcache]
      exact hdist r (hfiltLt r hrFilt) i hiLt hri
    have hstep : scanPage pages (fun t => t) st i = Except.ok
        { st with fpMap := (st.cache i, i) :: st.fpMap,
                  filtered := st.filtered ++ [i] } := by
      simp [scanPage, hlk]
    have hassoc : (st.filtered ++ [i]) ++ rest = st.filtered ++ (i :: rest) := by simp
    obtain ⟨st2, hrun2, hfilt2, hredir2, hcache2⟩ := ih
      { st with fpMap := (st.cache i, i) :: st.fpMap, filtered := st.filtered ++ [i] }
      hredir hcache
      (by
        intro e he
        rcases List.mem_cons.mp he with h1 | h1
        · refine ⟨i, by simp, ?_⟩
          rw [h1, hcache]
        · obtain ⟨r, hrFilt, hre⟩ := hmap e h1
          exact ⟨r, List.mem_append.mpr (Or.inl hrFilt), hre⟩)
      (by
        intro r hr
        rcases List.mem_append.mp hr with h1 | h1
        · exact hfiltLt r h1
        · simp only [List.mem_singleton] at h1
          exact h1 ▸ hiLt)
      (fun j hj => hrestLt j (List.mem_cons_of_mem _ hj))
      (by rw [hassoc]; exact hnodup)
    refine ⟨st2, ?_, ?_, hredir2, hcache2⟩
    · rw [scanList, hstep]
      exact hrun2
    · rw [hfilt2]
      simp

/-- On a non-empty input whose freshly built fingerprints are pairwise
distinct, `reduce_views` performs a single pass that merges nothing. -/
theorem reduce_views_distinct (pages : List GameView) (hne : pages ≠ [])
    (hdist : ∀ i, i < pages.length → ∀ j, j < pages.length → i ≠ j →
      renderTrace pages (List.replicate pages.length none) i ≠
      renderTrace pages (List.replicate pages.length none) j) (mp : Bool) :
    reduce_views pages mp = Except.ok ⟨List.range pages.length,
      List.replicate pages.length none, [0], 0, 0⟩ := by
  have hn0 : pages.length ≠ 0 := by simpa [List.length_eq_zero] using hne
  obtain ⟨st2, hscan, hfilt2, hredir2, _⟩ := scanList_distinct_aux pages hdist
    (List.range pages.length)
    ⟨List.replicate pages.length none,
     fun p => renderTrace pages (List.replicate pages.length none) p, [], []⟩
    rfl rfl (fun e he => absurd he (List.not_mem_nil e))
    (fun r hr => absurd hr (List.not_mem_nil r))
    (fun i hi => List.mem_range.mp hi)
    (by simpa using List.nodup_range pages.length)
  have hfilt2eq : st2.filtered = List.range pages.length := by simpa using hfilt2
  have hlen2 : st2.filtered.length = pages.length := by rw [hfilt2eq]; simp
  rw [reduce_views_eq, reduceWith, loopAux_succ_eq hscan]
  have hrem : (List.range pages.length).length - st2.filtered.length = 0 := by
    simp [hlen2]
  rw [hrem]
  have hstop : stopCond 0 mp = true := by simp [stopCond]
  rw [if_pos hstop, if_neg hn0, hfilt2eq, hredir2]
  simp

/-- C6 as stated is false on the code: `reduce_views` on `cexPages` stops
after one pass (1 removal is below the 25-removal threshold), and running
`reduce_views` again on its own output — the surviving pages with action
targets resolved through the final redirects — removes one further page. -/
theorem c6_counterexample :
    reduce_views cexPages true = Except.ok cexResult ∧
    (reduce_views (outputPages cexPages cexResult) true).toOption.map
      ReduceResult.totalRemoved = some 1 :=
  ⟨by decide, by decide⟩

/-- C6 (amended): a second `reduce_views` run on the output of a previous run
removes zero additional pages whenever the freshly computed output-page
fingerprints are pairwise distinct (true convergence); the early-stopping
threshold means this need not hold in general, see `c6_counterexample`. -/
theorem c6_amended_idempotence (pages : List GameView) (mp : Bool) (r : ReduceResult)
    (hok : reduce_views pages mp = Except.ok r)
    (hdist : ∀ i, i < (outputPages pages r).length →
      ∀ j, j < (outputPages pages r).length → i ≠ j →
      renderTrace (outputPages pages r)
        (List.replicate (outputPages pages r).length none) i ≠
      renderTrace (outputPages pages r)
        (List.replicate (outputPages pages r).length none) j) :
    reduce_views (outputPages pages r) true = Except.ok
      ⟨List.range (outputPages pages r).length,
       List.replicate (outputPages pages r).length none, [0], 0, 0⟩ := by
  rw [reduce_views_eq] at hok
  rcases reduceWith_run (fun t => t) pages mp with ⟨_, herr⟩ | ⟨_, r2, hok2, _, hsne, _⟩
  · rw [herr] at hok
    cases hok
  · rw [hok2] at hok
    have heq2 : r = r2 := by
      injection hok with hh
      exact hh.symm
    subst heq2
    have hne : outputPages pages r ≠ [] := by
      intro hh
      exact hsne (List.map_eq_nil_iff.mp hh)
    exact reduce_views_distinct _ hne hdist true

/-- Witness for the amended C6: the self-loop example converges in one run and
a second run removes nothing. -/
theorem c6_witness :
    reduce_views (outputPages cexSelf cexSelfResult) true = Except.ok
      ⟨List.range (outputPages cexSelf cexSelfResult).length,
       List.replicate (outputPages cexSelf cexSelfResult).length none, [0], 0, 0⟩ :=
  c6_amended_idempotence cexSelf true cexSelfResult (by decide) (by decide)

end UndyingDusk
